import Mathlib

/-!
Shallow embedding of the wave_function_collapse repository (two source files,
src/wfc.py and src/main.py) and proofs about the claims of its specification.

Namespace `Wfc` embeds src/wfc.py; namespace `Main` embeds src/main.py.
Python machine state is passed explicitly: the mutable `Grid`/`Sudoku`
objects become values threaded through the functions, `random.choice`
becomes an explicit natural-number draw `n` selecting index `n % len`,
and `assert` failures become `Option.none` results.  Recursive propagation
carries an explicit fuel argument; every theorem about it either holds for
all fuels or is conditioned on the run returning `some`.
-/

namespace Wfc

/-- Tile enumeration of wfc.py (`class Tile(Enum)`), declaration order
Water, Sand, Grass, Stone. -/
inductive Tile where
  | Water : Tile
  | Sand : Tile
  | Grass : Tile
  | Stone : Tile
deriving DecidableEq, Repr

/-- wfc.py `Cell` dataclass: coordinates, remaining options, optional value. -/
structure Cell where
  x : Nat
  y : Nat
  options : List Tile
  value : Option Tile
deriving DecidableEq, Repr

/-- A default cell, used only as the default of list indexing (Python would
raise IndexError; all uses are guarded by emptiness checks as in the code). -/
def defaultCell : Cell := ⟨0, 0, [], none⟩

/-- wfc.py `Cell.remove(*options)`: remove each listed option that is present
(Python `list.remove` drops the first occurrence; absent values are skipped
by the `in` check, which `List.erase` also does), then
`assert len(self.options) > 0` — failure is modelled as `none`. -/
def Cell.remove (c : Cell) (opts : List Tile) : Option Cell :=
  let res := opts.foldl (fun l o => l.erase o) c.options
  if res.isEmpty then none else some { c with options := res }

/-- wfc.py `Cell.is_solved`: true iff a value is set. -/
def Cell.is_solved (c : Cell) : Bool := c.value.isSome

/-- wfc.py `Grid` dataclass.  The Python `dict[tuple[int,int], Cell]` is
modelled as a total function from coordinates; iteration order of the dict
(insertion order of `load_grid`: x fastest, y outer) is recovered by
`Grid.values` below. -/
structure Grid where
  w : Nat
  h : Nat
  cells : Nat × Nat → Cell

/-- wfc.py `Cell.entropy(grid)`: -1 for solved cells, otherwise option count
raised to the power max(x, w-x)^2 + max(y, h-y)^2 (exact integer arithmetic;
for in-range coordinates Nat subtraction agrees with Python). -/
def Cell.entropy (c : Cell) (g : Grid) : Int :=
  if c.is_solved then -1
  else
    let r : Nat := (max c.x (g.w - c.x)) ^ 2 + (max c.y (g.h - c.y)) ^ 2
    (c.options.length : Int) ^ r

/-- Point update of the grid map (Python mutates the Cell object held by
the dict in place). -/
def setCell (g : Grid) (p : Nat × Nat) (c : Cell) : Grid :=
  { g with cells := fun q => if q = p then c else g.cells q }

/-- The iteration order of the Python dict, `list(grid)` / `Grid.__iter__`:
the values in insertion order of `load_grid` (for y in range(h): for x in
range(w)). -/
def Grid.values (g : Grid) : List Cell :=
  (List.range g.h).foldr
    (fun y acc => ((List.range g.w).map fun x => g.cells (x, y)) ++ acc) []

/-- wfc.py `Grid.is_solved`: all cells have a value. -/
def Grid.is_solved (g : Grid) : Bool := g.values.all Cell.is_solved

/-- wfc.py `load_grid(w, h)`: every cell initialized with the full alphabet
in enum order. -/
def load_grid (w h : Nat) : Grid :=
  ⟨w, h, fun p => ⟨p.1, p.2, [Tile.Water, Tile.Sand, Tile.Grass, Tile.Stone], none⟩⟩

/-- Comparison relation used to model `flat.sort(key=entropy)`: Python's
`sort(key=...)` computes the key of each element once and stably sorts the
(key, element) pairs; a stable sort is extensionally unique, so
`List.insertionSort` over the keyed pairs reproduces it exactly. -/
def entPairRel (a b : Int × Cell) : Prop := a.1 ≤ b.1

instance : DecidableRel entPairRel := fun a b => inferInstanceAs (Decidable (a.1 ≤ b.1))

instance : IsTotal (Int × Cell) entPairRel := ⟨fun a b => le_total a.1 b.1⟩

instance : IsTrans (Int × Cell) entPairRel := ⟨fun _ _ _ h h' => le_trans h h'⟩

/-- The flat cell list of `get_min_entropy` after `flat.sort(key=entropy)`. -/
def sortedValues (g : Grid) : List Cell :=
  ((g.values.map fun c => (c.entropy g, c)).insertionSort entPairRel).map (·.2)

/-- The list after `flat = list(filter(lambda c: not c.is_solved(), flat))`. -/
def unresolvedSorted (g : Grid) : List Cell :=
  (sortedValues g).filter fun c => ! c.is_solved

/-- The candidate list fed to `choice` in wfc.py `get_min_entropy`: all
unresolved cells whose entropy equals that of the first unresolved cell of
the sorted list. -/
def minCandidates (g : Grid) : List Cell :=
  let flat := unresolvedSorted g
  let minE := (flat.headD defaultCell).entropy g
  flat.filter fun c => c.entropy g = minE

/-- wfc.py `get_min_entropy(grid)`: sort by entropy, drop solved cells
(assert some remain), keep the cells of minimal entropy (assert again),
and pick one at random (`choice` modelled by the draw `rnd`). -/
def get_min_entropy (g : Grid) (rnd : Nat) : Option Cell :=
  if (unresolvedSorted g).isEmpty then none
  else
    let flat := minCandidates g
    if flat.isEmpty then none
    else some (flat.getD (rnd % flat.length) defaultCell)

/-- wfc.py `cell_neighbors(cell, grid)`: the up-to-four orthogonal neighbor
coordinates in code order (left, right, up, down), `assert len(cells) > 0`
modelled as `none`. -/
def cell_neighbors (c : Cell) (g : Grid) : Option (List (Nat × Nat)) :=
  let l1 : List (Nat × Nat) := if 0 < c.x then [(c.x - 1, c.y)] else []
  let l2 : List (Nat × Nat) := if c.x < g.w - 1 then [(c.x + 1, c.y)] else []
  let l3 : List (Nat × Nat) := if 0 < c.y then [(c.x, c.y - 1)] else []
  let l4 : List (Nat × Nat) := if c.y < g.h - 1 then [(c.x, c.y + 1)] else []
  let cells := l1 ++ l2 ++ l3 ++ l4
  if cells.isEmpty then none else some cells

/-- The auto-resolve step opening wfc.py `propagate`: if the cell has exactly
one option, commit it (`value = options[0]`) and clear the options. -/
def autoResolveCell (c : Cell) : Cell :=
  if c.options.length = 1 then
    { c with value := some (c.options.getD 0 Tile.Water), options := [] }
  else c

/-- The `match cell.value` block of wfc.py `propagate`, applied to one
unresolved neighbor: strike the options dictated by the source cell's state.
The `None` case performs its two conditional `remove` calls in sequence and
ends with `assert len(neighbor.options) > 0`, exactly as the code does. -/
def applyRule (src nb : Cell) : Option Cell :=
  match src.value with
  | some Tile.Water => nb.remove [Tile.Grass, Tile.Stone]
  | some Tile.Sand => nb.remove [Tile.Stone]
  | some Tile.Grass => nb.remove [Tile.Water]
  | some Tile.Stone => nb.remove [Tile.Water, Tile.Sand]
  | none =>
    let s1 := if Tile.Grass ∈ src.options then some nb else nb.remove [Tile.Stone]
    match s1 with
    | none => none
    | some nb1 =>
      let s2 := if Tile.Sand ∈ src.options then some nb1 else nb1.remove [Tile.Water]
      match s2 with
      | none => none
      | some nb2 => if nb2.options.isEmpty then none else some nb2

/-- The body of the neighbor loop of wfc.py `propagate` for one neighbor `q`
of the cell at `p`: skip solved neighbors, assert the neighbor has more than
one option, apply the rule, and — when the option count changed — recurse
(the recursive `propagate` is passed in as `rec`). -/
def neighborStep (rec : Nat × Nat → Grid → Option Grid) (p q : Nat × Nat)
    (g : Grid) : Option Grid :=
  if (g.cells q).is_solved then some g
  else if (g.cells q).options.length ≤ 1 then none
  else
    let before := (g.cells q).options.length
    match applyRule (g.cells p) (g.cells q) with
    | none => none
    | some nb =>
      let g2 := setCell g q nb
      if (g2.cells q).options.length ≠ before then rec q g2 else some g2

/-- wfc.py `propagate(cell, grid, rules)`: auto-resolve a singleton cell,
compute the neighbor list (fatal when empty), then run the neighbor loop,
recursing into every neighbor whose option count changed.  The Python
recursion is bounded by ever-shrinking option sets; here a fuel argument
makes it structural, `none` when the fuel runs out. -/
def propagate : Nat → Nat × Nat → Grid → Option Grid
  | 0, _, _ => none
  | n + 1, p, g =>
    let g1 := setCell g p (autoResolveCell (g.cells p))
    match cell_neighbors (g1.cells p) g1 with
    | none => none
    | some nbs =>
      nbs.foldl
        (fun acc q =>
          match acc with
          | none => none
          | some g2 => neighborStep (propagate n) p q g2)
        (some g1)

/-- wfc.py `collapse_cell(cell)`: assert unsolved and assert options remain,
then commit a randomly chosen option and clear. -/
def collapse_cell (c : Cell) (rnd : Nat) : Option Cell :=
  if c.is_solved then none
  else if c.options.isEmpty then none
  else some { c with value := some (c.options.getD (rnd % c.options.length) Tile.Water)
                   , options := [] }

/-- wfc.py `collapse(grid, rules)`: select the min-entropy cell, collapse it
in place, then propagate from it. -/
def collapse (fuel : Nat) (g : Grid) (rnd1 rnd2 : Nat) : Option Grid :=
  match get_min_entropy g rnd1 with
  | none => none
  | some c =>
    match collapse_cell c rnd2 with
    | none => none
    | some c2 => propagate fuel (c2.x, c2.y) (setCell g (c2.x, c2.y) c2)

/-- One border/center seeding step of wfc.py `init_grid`: set the value,
clear the options, and propagate from the seeded cell. -/
def seedCell (fuel : Nat) (g : Grid) (p : Nat × Nat) (t : Tile) : Option Grid :=
  let g1 := setCell g p { g.cells p with value := some t, options := [] }
  propagate fuel p g1

end Wfc

namespace Main

/-- main.py `Cell`: row, column, optional value, remaining options. -/
structure Cell where
  r : Nat
  c : Nat
  value : Option Nat
  options : List Nat
deriving DecidableEq, Repr

/-- main.py `Cell.remove_option(option)`: remove the option if present. -/
def Cell.remove_option (c : Cell) (o : Nat) : Cell :=
  if o ∈ c.options then { c with options := c.options.erase o } else c

/-- main.py `Cell.entropy`: the option count. -/
def Cell.entropy (c : Cell) : Nat := c.options.length

/-- main.py `Cell.complete`: entropy zero. -/
def Cell.complete (c : Cell) : Bool := c.entropy = 0

/-- main.py `Sudoku`: `_cells` (the 9×9 structure, reached through
`get_cell`) is the id-indexed list `cells`, where cell (r, c) was created at
index r*9+c and `_cells` is never reordered; `_flat` is the list `order` of
ids, reordered in place by the sort in `get_min_entropy`. -/
structure Sudoku where
  cells : List Cell
  order : List Nat
deriving DecidableEq, Repr

/-- The constructor `Sudoku.__init__`: 81 cells with options 1..9, row-major. -/
def Sudoku.init : Sudoku :=
  ⟨(List.range 81).map fun i => ⟨i / 9, i % 9, none, (List.range 9).map (· + 1)⟩,
   List.range 81⟩

/-- Lookup `get_cell(r, c)` by flat id r*9+c (the bounds asserts of the
source hold at every call site; out-of-range ids return a default cell). -/
def Sudoku.get (s : Sudoku) (i : Nat) : Cell := s.cells.getD i ⟨0, 0, none, []⟩

/-- Writing a cell back (Python mutates the object in place). -/
def Sudoku.set (s : Sudoku) (i : Nat) (c : Cell) : Sudoku :=
  { s with cells := s.cells.set i c }

/-- The call `cell.remove_option(target.value)` at flat id `i`: Python
passes the target's `value` attribute, and `None in options` is false, so a
`none` value is a no-op. -/
def Sudoku.removeOptionAt (s : Sudoku) (i : Nat) (v : Option Nat) : Sudoku :=
  match v with
  | none => s
  | some n => s.set i ((s.get i).remove_option n)

/-- main.py `Sudoku.is_solved`: every cell has a value. -/
def Sudoku.is_solved (s : Sudoku) : Bool := s.cells.all fun c => c.value.isSome

/-- main.py `Sudoku.propagate(target)`: remove the target's value from the
8 other cells of its row, the 8 other cells of its column, and the cells of
the 3×3 block at block index (r % 3, c % 3) scaled by 3, skipping a block
cell only when it coincides with the target itself. -/
def Sudoku.propagate (s : Sudoku) (tid : Nat) : Sudoku :=
  let t := s.get tid
  let s1 := (List.range 9).foldl
    (fun st cq => if cq = t.c then st else st.removeOptionAt (t.r * 9 + cq) t.value) s
  let s2 := (List.range 9).foldl
    (fun st rq => if rq = t.r then st else st.removeOptionAt (rq * 9 + t.c) t.value) s1
  let rb := t.r % 3
  let cb := t.c % 3
  (List.range 3).foldl
    (fun st ri =>
      (List.range 3).foldl
        (fun st2 ci =>
          let rr := ri + rb * 3
          let cc := ci + cb * 3
          if rr = t.r ∧ cc = t.c then st2
          else st2.removeOptionAt (rr * 9 + cc) t.value)
        st)
    s2

/-- The `self._flat.sort(key=entropy)` step of `Sudoku.get_min_entropy`:
stable sort of the id order by entropy (keys computed once, as Python's
`key=` does; a stable sort is extensionally unique, so insertion sort over
the keyed pairs reproduces it). -/
def Sudoku.sorted_order (s : Sudoku) : List Nat :=
  ((s.order.map fun i => ((s.get i).entropy, i)).insertionSort
    (fun a b => a.1 ≤ b.1)).map (·.2)

/-- `cells = [c for c in self._flat if c.entropy() > 0]` (after the sort). -/
def Sudoku.entropy_filtered (s : Sudoku) : List Nat :=
  s.sorted_order.filter fun i => 0 < (s.get i).entropy

/-- `sub_cells` of main.py `Sudoku.get_min_entropy`: scan the filtered list
for the first cell of entropy above the minimum (`i` stops there, or at the
last index when none exists) and take the prefix `cells[:i+1]`. -/
def Sudoku.min_entropy_candidates (s : Sudoku) : List Nat :=
  let cells := s.entropy_filtered
  let low := (s.get (cells.headD 0)).entropy
  let k := match cells.findIdx? (fun i => low < (s.get i).entropy) with
    | some k => k
    | none => cells.length - 1
  cells.take (k + 1)

/-- main.py `Sudoku.get_min_entropy`: sort `_flat` in place (the returned
state carries the new order), assert some cell has positive entropy, and
pick a random element of `sub_cells`; the result is the chosen flat id. -/
def Sudoku.get_min_entropy (s : Sudoku) (rnd : Nat) : Option (Sudoku × Nat) :=
  if s.entropy_filtered.isEmpty then none
  else
    let sub := s.min_entropy_candidates
    some ({ s with order := s.sorted_order }, sub.getD (rnd % sub.length) 0)

/-- main.py `Sudoku.collapse(target)`: assert options remain, commit a
random option, clear the options. -/
def Sudoku.collapse (s : Sudoku) (i : Nat) (rnd : Nat) : Option Sudoku :=
  let t := s.get i
  if t.options.isEmpty then none
  else some (s.set i { t with value := some (t.options.getD (rnd % t.options.length) 0)
                            , options := [] })

/-- The extra pass inside main.py `Sudoku.solve`: scan `_flat` and collapse
and propagate every cell that has no value and exactly one option.  The
oracle index `k` counts the random draws consumed so far. -/
def Sudoku.solve_pass (s : Sudoku) (oracle : Nat → Nat) (k : Nat) :
    Option (Sudoku × Nat) :=
  s.order.foldl
    (fun acc i =>
      match acc with
      | none => none
      | some (st, kk) =>
        let c := st.get i
        if c.value = none ∧ c.entropy = 1 then
          match st.collapse i (oracle kk) with
          | none => none
          | some st2 => some (st2.propagate i, kk + 1)
        else some (st, kk))
    (some (s, k))

/-- main.py `Sudoku.solve`: while not solved, pick the min-entropy cell
(one draw), collapse it (one draw), propagate, then run the extra pass.
Fuel bounds the loop; each iteration resolves at least one cell, so fuel 100
always suffices for a terminating run. -/
def Sudoku.solve : Nat → Sudoku → (Nat → Nat) → Nat → Option (Sudoku × Nat)
  | 0, _, _, _ => none
  | n + 1, s, oracle, k =>
    if s.is_solved then some (s, k)
    else
      match s.get_min_entropy (oracle k) with
      | none => none
      | some (s1, i) =>
        match s1.collapse i (oracle (k + 1)) with
        | none => none
        | some s2 =>
          match (s2.propagate i).solve_pass oracle (k + 2) with
          | none => none
          | some (s4, k4) => Sudoku.solve n s4 oracle k4

/-- The box-completeness check of main.py `test(sudoku)`: every 3×3 block
(block indices from `range(3)`, rows `r + r_block*3`) contains every value
1..9. -/
def Sudoku.boxes_complete (s : Sudoku) : Bool :=
  (List.range 3).all fun rb =>
    (List.range 3).all fun cb =>
      (List.range 9).all fun v =>
        ((List.range 3).map fun ri =>
          (List.range 3).map fun ci =>
            (s.get ((ri + rb * 3) * 9 + (ci + cb * 3))).value).flatten.contains
          (some (v + 1))

/-- The row-completeness check of main.py `test(sudoku)`. -/
def Sudoku.rows_complete (s : Sudoku) : Bool :=
  (List.range 9).all fun r =>
    (List.range 9).all fun v =>
      ((List.range 9).map fun c => (s.get (r * 9 + c)).value).contains (some (v + 1))

/-- The column-completeness check of main.py `test(sudoku)`. -/
def Sudoku.cols_complete (s : Sudoku) : Bool :=
  (List.range 9).all fun c =>
    (List.range 9).all fun v =>
      ((List.range 9).map fun r => (s.get (r * 9 + c)).value).contains (some (v + 1))

end Main

/-! ### Shared list lemmas about iterated erasure -/

lemma eraseFold_sublist {α : Type} [DecidableEq α] (opts l : List α) :
    List.Sublist (opts.foldl (fun acc o => acc.erase o) l) l := by
  induction opts generalizing l with
  | nil => simp
  | cons o rest ih =>
    simp only [List.foldl_cons]
    exact (ih (l.erase o)).trans (List.erase_sublist o l)

lemma eraseFold_length_le {α : Type} [DecidableEq α] (opts l : List α) :
    (opts.foldl (fun acc o => acc.erase o) l).length ≤ l.length :=
  (eraseFold_sublist opts l).length_le

lemma eraseFold_nodup {α : Type} [DecidableEq α] (opts l : List α) (h : l.Nodup) :
    (opts.foldl (fun acc o => acc.erase o) l).Nodup :=
  List.Nodup.sublist (eraseFold_sublist opts l) h

lemma eraseFold_mem {α : Type} [DecidableEq α] (opts : List α) :
    ∀ (l : List α), l.Nodup → ∀ a,
      (a ∈ opts.foldl (fun acc o => acc.erase o) l ↔ a ∈ l ∧ a ∉ opts) := by
  induction opts with
  | nil => intro l _ a; simp
  | cons o rest ih =>
    intro l hl a
    simp only [List.foldl_cons]
    rw [ih (l.erase o) (List.Nodup.sublist (List.erase_sublist o l) hl),
      List.Nodup.mem_erase_iff hl]
    simp only [List.mem_cons]
    tauto

namespace Wfc

/-! ### Characterizations of Cell.remove and the constraint rule -/

lemma remove_eq_none_iff (c : Cell) (opts : List Tile) :
    c.remove opts = none ↔
      (opts.foldl (fun acc o => acc.erase o) c.options).isEmpty = true := by
  unfold Cell.remove
  by_cases h : (opts.foldl (fun acc o => acc.erase o) c.options).isEmpty <;> simp [h]

lemma remove_eq_some_iff (c : Cell) (opts : List Tile) (c' : Cell) :
    c.remove opts = some c' ↔
      ((opts.foldl (fun acc o => acc.erase o) c.options).isEmpty = false ∧
        c' = { c with options := opts.foldl (fun acc o => acc.erase o) c.options }) := by
  unfold Cell.remove
  by_cases h : (opts.foldl (fun acc o => acc.erase o) c.options).isEmpty <;>
    simp [h, eq_comm]

/-- The strike list of the spec's Constraint Rule (§4.3), written from the
spec's words: a fixed table for a resolved source, and the conservative
partial rule for an unresolved source. -/
def ruleStrikes (src : Cell) : List Tile :=
  match src.value with
  | some Tile.Water => [Tile.Grass, Tile.Stone]
  | some Tile.Sand => [Tile.Stone]
  | some Tile.Grass => [Tile.Water]
  | some Tile.Stone => [Tile.Water, Tile.Sand]
  | none =>
    (if Tile.Grass ∈ src.options then [] else [Tile.Stone]) ++
      (if Tile.Sand ∈ src.options then [] else [Tile.Water])

/-- Spec-side formulation of the per-neighbor rule application: one removal
of the whole strike list, fatal iff the option set would become empty. -/
def applyRuleSpec (src nb : Cell) : Option Cell := nb.remove (ruleStrikes src)

lemma isEmpty_erase_of_isEmpty {l : List Tile} (h : l.isEmpty = true) (a : Tile) :
    (l.erase a).isEmpty = true := by
  cases l with
  | nil => rfl
  | cons x xs => simp at h

/-- The inline match of wfc.py propagate computes exactly the spec's rule:
the sequential conditional removals of the source-unresolved branch agree
with one removal of the combined strike list. -/
lemma applyRule_eq_spec (src nb : Cell) : applyRule src nb = applyRuleSpec src nb := by
  unfold applyRule applyRuleSpec ruleStrikes
  cases hv : src.value with
  | some t => cases t <;> rfl
  | none =>
    by_cases hg : Tile.Grass ∈ src.options <;> by_cases hs : Tile.Sand ∈ src.options <;>
      simp only [hg, hs, if_pos, if_neg, not_false_iff, List.append_nil, List.nil_append]
    · -- both present: no strikes, just the final emptiness assert
      unfold Cell.remove
      by_cases h : nb.options.isEmpty <;> simp [h]
    · -- Sand absent: single Water strike
      unfold Cell.remove
      by_cases h : (nb.options.erase Tile.Water).isEmpty <;> simp [h]
    · -- Grass absent: single Stone strike
      unfold Cell.remove
      by_cases h : (nb.options.erase Tile.Stone).isEmpty <;> simp [h]
    · -- both absent: Stone then Water
      unfold Cell.remove
      by_cases h1 : (nb.options.erase Tile.Stone).isEmpty
      · have h2 : ((nb.options.erase Tile.Stone).erase Tile.Water).isEmpty = true :=
          isEmpty_erase_of_isEmpty h1 _
        simp [h1, h2]
      · by_cases h2 : ((nb.options.erase Tile.Stone).erase Tile.Water).isEmpty <;>
          simp [h1, h2]

lemma applyRule_some_eq (src nb nb' : Cell) (h : applyRule src nb = some nb') :
    nb' = { nb with options :=
      (ruleStrikes src).foldl (fun acc o => acc.erase o) nb.options } := by
  rw [applyRule_eq_spec, applyRuleSpec, remove_eq_some_iff] at h
  exact h.2

lemma applyRule_length_le (src nb nb' : Cell) (h : applyRule src nb = some nb') :
    nb'.options.length ≤ nb.options.length := by
  rw [applyRule_some_eq src nb nb' h]
  exact eraseFold_length_le _ _

/-- The strike table as stated by the claim: which tiles are struck from a
neighbor, as a function of the source cell's state. -/
def struckBy (src : Cell) (t : Tile) : Prop :=
  match src.value with
  | some Tile.Water => t = Tile.Grass ∨ t = Tile.Stone
  | some Tile.Sand => t = Tile.Stone
  | some Tile.Grass => t = Tile.Water
  | some Tile.Stone => t = Tile.Water ∨ t = Tile.Sand
  | none =>
    (t = Tile.Stone ∧ Tile.Grass ∉ src.options) ∨
      (t = Tile.Water ∧ Tile.Sand ∉ src.options)

lemma mem_ruleStrikes_iff (src : Cell) (t : Tile) :
    t ∈ ruleStrikes src ↔ struckBy src t := by
  unfold ruleStrikes struckBy
  cases hv : src.value with
  | some tt => cases tt <;> simp [List.mem_cons]
  | none =>
    by_cases hg : Tile.Grass ∈ src.options <;> by_cases hs : Tile.Sand ∈ src.options <;>
      simp [hg, hs, List.mem_cons]

end Wfc

/-- Claim C5: in WFC propagation, the options struck from an unresolved
neighbor are exactly those of the fixed compatibility table when the source
is resolved (Water strikes Grass and Stone, Sand strikes Stone, Grass
strikes Water, Stone strikes Water and Sand), and exactly the conservative
partial rule when the source is unresolved (Stone iff Grass is absent from
the source's options, Water iff Sand is absent); no other option is ever
struck.  Stated as a membership characterization of the rule application of
wfc.py propagate. -/
theorem wfc_rule_strikes_exactly (src nb nb' : Wfc.Cell)
    (hnd : nb.options.Nodup) (h : Wfc.applyRule src nb = some nb') :
    nb'.value = nb.value ∧
      ∀ t, t ∈ nb'.options ↔ t ∈ nb.options ∧ ¬ Wfc.struckBy src t := by
  rw [Wfc.applyRule_some_eq src nb nb' h]
  refine ⟨rfl, fun t => ?_⟩
  rw [eraseFold_mem _ _ hnd t, Wfc.mem_ruleStrikes_iff]

/-- Witness for C5: a Water source strikes Grass (and preserves Water) in a
neighbor holding Water, Sand and Grass. -/
theorem wfc_rule_strikes_exactly_witness :
    ([Wfc.Tile.Water, Wfc.Tile.Sand, Wfc.Tile.Grass] : List Wfc.Tile).Nodup ∧
      ((⟨1, 0, [Wfc.Tile.Water, Wfc.Tile.Sand], none⟩ : Wfc.Cell).value =
        (⟨1, 0, [Wfc.Tile.Water, Wfc.Tile.Sand, Wfc.Tile.Grass], none⟩ : Wfc.Cell).value ∧
      ∀ t, t ∈ (⟨1, 0, [Wfc.Tile.Water, Wfc.Tile.Sand], none⟩ : Wfc.Cell).options ↔
        t ∈ (⟨1, 0, [Wfc.Tile.Water, Wfc.Tile.Sand, Wfc.Tile.Grass], none⟩ : Wfc.Cell).options ∧
          ¬ Wfc.struckBy (⟨0, 0, [], some Wfc.Tile.Water⟩ : Wfc.Cell) t) :=
  ⟨by decide,
    wfc_rule_strikes_exactly ⟨0, 0, [], some Wfc.Tile.Water⟩
      ⟨1, 0, [Wfc.Tile.Water, Wfc.Tile.Sand, Wfc.Tile.Grass], none⟩
      ⟨1, 0, [Wfc.Tile.Water, Wfc.Tile.Sand], none⟩ (by decide) (by decide)⟩

/-- Claim C4, counterexample to the claim as stated: the claim asserts that
both wfc.py Cell.remove and main.py Cell.remove_option raise a fatal error
exactly when the removals leave the option set empty.  main.py
remove_option has no failure path at all: removing 5 from a cell whose only
option is 5 returns normally with an empty option set, while the very same
emptying removal is fatal (an assertion failure) in wfc.py Cell.remove. -/
theorem remove_option_empties_silently :
    (Main.Cell.remove_option ⟨0, 0, none, [5]⟩ 5).options = [] ∧
      Wfc.Cell.remove ⟨0, 0, [Wfc.Tile.Water], none⟩ [Wfc.Tile.Water] = none := by
  decide

/-- Claim C4 (amended): wfc.py Cell.remove raises a fatal error iff the
removals leave the option set empty, and otherwise removes exactly the
listed values that are present; main.py Cell.remove_option never raises: it
totally removes the listed value when present, even when that empties the
option set. -/
theorem option_removal_fatal_iff :
    (∀ (c : Wfc.Cell) (opts : List Wfc.Tile),
        c.remove opts = none ↔
          (opts.foldl (fun acc o => acc.erase o) c.options).isEmpty = true) ∧
    (∀ (c : Wfc.Cell) (opts : List Wfc.Tile) (c' : Wfc.Cell), c.options.Nodup →
        c.remove opts = some c' →
          c'.value = c.value ∧ ∀ t, t ∈ c'.options ↔ t ∈ c.options ∧ t ∉ opts) ∧
    (∀ (c : Main.Cell) (o : Nat), c.options.Nodup →
        (c.remove_option o).value = c.value ∧
          ∀ t, t ∈ (c.remove_option o).options ↔ t ∈ c.options ∧ t ≠ o) := by
  refine ⟨fun c opts => Wfc.remove_eq_none_iff c opts, fun c opts c' hnd h => ?_, fun c o hnd => ?_⟩
  · rw [Wfc.remove_eq_some_iff] at h
    rw [h.2]
    exact ⟨rfl, fun t => eraseFold_mem opts c.options hnd t⟩
  · unfold Main.Cell.remove_option
    by_cases hm : o ∈ c.options
    · rw [if_pos hm]
      exact ⟨rfl, fun t => by rw [List.Nodup.mem_erase_iff hnd]; tauto⟩
    · rw [if_neg hm]
      exact ⟨rfl, fun t => ⟨fun ht => ⟨ht, fun he => hm (he ▸ ht)⟩, fun ht => ht.1⟩⟩

/-- Witness for C4 (amended): removing Sand from a cell holding Water and
Sand succeeds in wfc.py and leaves exactly Water. -/
theorem option_removal_fatal_iff_witness :
    ([Wfc.Tile.Water, Wfc.Tile.Sand] : List Wfc.Tile).Nodup ∧
      ((⟨0, 0, [Wfc.Tile.Water], none⟩ : Wfc.Cell).value =
          (⟨0, 0, [Wfc.Tile.Water, Wfc.Tile.Sand], none⟩ : Wfc.Cell).value ∧
        ∀ t, t ∈ (⟨0, 0, [Wfc.Tile.Water], none⟩ : Wfc.Cell).options ↔
          t ∈ (⟨0, 0, [Wfc.Tile.Water, Wfc.Tile.Sand], none⟩ : Wfc.Cell).options ∧
            t ∉ ([Wfc.Tile.Sand] : List Wfc.Tile)) :=
  ⟨by decide,
    option_removal_fatal_iff.2.1 ⟨0, 0, [Wfc.Tile.Water, Wfc.Tile.Sand], none⟩
      [Wfc.Tile.Sand] ⟨0, 0, [Wfc.Tile.Water], none⟩ (by decide) (by decide)⟩

/-- Claim C7: for an unresolved WFC cell at (x, y) in a grid of width w and
height h, the entropy is the option count raised to the power
max(x, w-x)^2 + max(y, h-y)^2, in exact integer arithmetic. -/
theorem wfc_entropy_unresolved (c : Wfc.Cell) (g : Wfc.Grid)
    (h : c.value = none) (_hx : c.x < g.w) (_hy : c.y < g.h) :
    c.entropy g =
      (c.options.length : Int) ^ ((max c.x (g.w - c.x)) ^ 2 + (max c.y (g.h - c.y)) ^ 2) := by
  unfold Wfc.Cell.entropy Wfc.Cell.is_solved
  rw [h]
  rfl

/-- Witness for C7: an unresolved two-option cell at (1, 2) of a 4 by 5
grid has entropy 2 ^ (3^2 + 3^2). -/
theorem wfc_entropy_unresolved_witness :
    (⟨1, 2, [Wfc.Tile.Water, Wfc.Tile.Sand], none⟩ : Wfc.Cell).value = none ∧
      (1 : Nat) < 4 ∧ (2 : Nat) < 5 ∧
      Wfc.Cell.entropy ⟨1, 2, [Wfc.Tile.Water, Wfc.Tile.Sand], none⟩ (Wfc.load_grid 4 5) =
        (2 : Int) ^ ((max 1 (4 - 1)) ^ 2 + (max 2 (5 - 2)) ^ 2) :=
  ⟨rfl, by decide, by decide,
    wfc_entropy_unresolved ⟨1, 2, [Wfc.Tile.Water, Wfc.Tile.Sand], none⟩
      (Wfc.load_grid 4 5) rfl (by decide) (by decide)⟩

/-! ### List indexing and generic fold lemmas -/

lemma getD_set_self {α : Type} (l : List α) (i : Nat) (a d : α) (h : i < l.length) :
    (l.set i a).getD i d = a := by
  induction l generalizing i with
  | nil => simp at h
  | cons x xs ih =>
    cases i with
    | zero => rfl
    | succ n => exact ih n (Nat.lt_of_succ_lt_succ h)

lemma getD_set_ne {α : Type} (l : List α) (i j : Nat) (a d : α) (h : i ≠ j) :
    (l.set i a).getD j d = l.getD j d := by
  induction l generalizing i j with
  | nil => rfl
  | cons x xs ih =>
    cases i with
    | zero =>
      cases j with
      | zero => exact absurd rfl h
      | succ m => rfl
    | succ n =>
      cases j with
      | zero => rfl
      | succ m => exact ih n m (fun he => h (by rw [he]))

lemma erase_erase_of_nodup {α : Type} [DecidableEq α] (l : List α) (v : α) (h : l.Nodup) :
    (l.erase v).erase v = l.erase v := by
  apply List.erase_of_not_mem
  intro hm
  rw [List.Nodup.mem_erase_iff h] at hm
  exact hm.1 rfl

lemma foldl_skip_filter {σ : Type} (step : σ → Nat → σ) (p : Nat → Prop)
    [DecidablePred p] (f : Nat → Nat) :
    ∀ (l : List Nat) (s : σ),
      l.foldl (fun st i => if p i then st else step st (f i)) s =
        ((l.filter fun i => decide (¬ p i)).map f).foldl step s := by
  intro l
  induction l with
  | nil => intro s; rfl
  | cons a rest ih =>
    intro s
    by_cases h : p a <;> simp [List.filter_cons, h, ih]

lemma foldl_of_folds {σ : Type} (step : σ → Nat → σ) (L : Nat → List Nat) :
    ∀ (l : List Nat) (s : σ),
      l.foldl (fun st a => (L a).foldl step st) s = (l.flatMap L).foldl step s := by
  intro l
  induction l with
  | nil => intro s; rfl
  | cons a rest ih => intro s; simp [List.flatMap_cons, List.foldl_append, ih]

namespace Main

/-! ### Characterization of Sudoku.propagate -/

lemma removeOptionAt_cells_length (s : Sudoku) (i : Nat) (v : Option Nat) :
    (s.removeOptionAt i v).cells.length = s.cells.length := by
  cases v with
  | none => rfl
  | some n => simp [Sudoku.removeOptionAt, Sudoku.set]

lemma remove_option_fields (c : Cell) (v : Nat) :
    (c.remove_option v).value = c.value ∧ (c.remove_option v).r = c.r ∧
      (c.remove_option v).c = c.c ∧ (c.remove_option v).options = c.options.erase v := by
  unfold Cell.remove_option
  by_cases h : v ∈ c.options
  · simp [h]
  · simp [h, List.erase_of_not_mem h]

lemma get_removeOptionAt (s : Sudoku) (i : Nat) (v : Nat) (hi : i < s.cells.length) (j : Nat) :
    (s.removeOptionAt i (some v)).get j =
      if j = i then (s.get i).remove_option v else s.get j := by
  simp only [Sudoku.removeOptionAt, Sudoku.set, Sudoku.get]
  by_cases hj : j = i
  · subst hj
    rw [if_pos rfl, getD_set_self _ _ _ _ hi]
  · rw [if_neg hj, getD_set_ne _ i j _ _ (fun he => hj he.symm)]

/-- One option-removal step of the propagation loops, at a fixed value. -/
def removeStep (v : Nat) (st : Sudoku) (i : Nat) : Sudoku := st.removeOptionAt i (some v)

lemma foldRemove_props (v : Nat) :
    ∀ (ids : List Nat) (s : Sudoku),
      (∀ i ∈ ids, i < s.cells.length) →
      (∀ j, j < s.cells.length → ((s.get j).options).Nodup) →
      (ids.foldl (removeStep v) s).cells.length = s.cells.length ∧
      ∀ j, ((ids.foldl (removeStep v) s).get j).value = (s.get j).value ∧
           ((ids.foldl (removeStep v) s).get j).r = (s.get j).r ∧
           ((ids.foldl (removeStep v) s).get j).c = (s.get j).c ∧
           ((ids.foldl (removeStep v) s).get j).options =
             (if j ∈ ids then (s.get j).options.erase v else (s.get j).options) := by
  intro ids
  induction ids with
  | nil => intro s _ _; exact ⟨rfl, fun j => by simp⟩
  | cons i rest ih =>
    intro s hids hnd
    have hi : i < s.cells.length := hids i (List.mem_cons_self i rest)
    have hlen1 : (removeStep v s i).cells.length = s.cells.length :=
      removeOptionAt_cells_length s i (some v)
    have hget1 : ∀ j, (removeStep v s i).get j =
        if j = i then (s.get i).remove_option v else s.get j :=
      fun j => get_removeOptionAt s i v hi j
    have hids' : ∀ x ∈ rest, x < (removeStep v s i).cells.length := by
      intro x hx
      rw [hlen1]
      exact hids x (List.mem_cons_of_mem i hx)
    have hnd' : ∀ j, j < (removeStep v s i).cells.length →
        (((removeStep v s i).get j).options).Nodup := by
      intro j hj
      rw [hlen1] at hj
      rw [hget1 j]
      by_cases hji : j = i
      · subst hji
        rw [if_pos rfl, (remove_option_fields (s.get j) v).2.2.2]
        exact List.Nodup.sublist (List.erase_sublist v _) (hnd j hj)
      · rw [if_neg hji]
        exact hnd j hj
    obtain ⟨ihlen, ihget⟩ := ih (removeStep v s i) hids' hnd'
    refine ⟨ihlen.trans hlen1, fun j => ?_⟩
    obtain ⟨hv1, hr1, hc1, ho1⟩ := ihget j
    rw [List.foldl_cons]
    rw [hv1, hr1, hc1, ho1, hget1 j]
    by_cases hji : j = i
    · subst hji
      rw [if_pos rfl]
      obtain ⟨f1, f2, f3, f4⟩ := remove_option_fields (s.get j) v
      rw [f1, f2, f3, f4]
      rw [if_pos (List.mem_cons_self j rest)]
      by_cases hjr : j ∈ rest
      · rw [if_pos hjr]
        refine ⟨rfl, rfl, rfl, ?_⟩
        by_cases hjlen : j < s.cells.length
        · exact erase_erase_of_nodup _ v (hnd j hjlen)
        · have : s.get j = ⟨0, 0, none, []⟩ := by
            unfold Sudoku.get
            rw [List.getD_eq_default]
            omega
          rw [this]
          rfl
      · rw [if_neg hjr]
        exact ⟨rfl, rfl, rfl, rfl⟩
    · rw [if_neg hji]
      by_cases hjr : j ∈ rest
      · rw [if_pos hjr, if_pos (List.mem_cons_of_mem i hjr)]
        exact ⟨rfl, rfl, rfl, rfl⟩
      · rw [if_neg hjr, if_neg (by simp [List.mem_cons, hji, hjr])]
        exact ⟨rfl, rfl, rfl, rfl⟩

end Main

namespace Main

/-- The flat ids visited by the row loop of Sudoku.propagate. -/
def rowIds (t : Cell) : List Nat :=
  ((List.range 9).filter fun cq => decide (¬ cq = t.c)).map fun cq => t.r * 9 + cq

/-- The flat ids visited by the column loop of Sudoku.propagate. -/
def colIds (t : Cell) : List Nat :=
  ((List.range 9).filter fun rq => decide (¬ rq = t.r)).map fun rq => rq * 9 + t.c

/-- The flat ids visited by the block loop of Sudoku.propagate: the 3 by 3
block at block index (r mod 3, c mod 3) scaled by 3, skipping only an exact
coincidence with the target. -/
def blockIds (t : Cell) : List Nat :=
  (List.range 3).flatMap fun ri =>
    ((List.range 3).filter fun ci =>
        decide (¬ (ri + t.r % 3 * 3 = t.r ∧ ci + t.c % 3 * 3 = t.c))).map
      fun ci => (ri + t.r % 3 * 3) * 9 + (ci + t.c % 3 * 3)

lemma foldl_skip_filterS (v : Option Nat) (p : Nat → Prop) [DecidablePred p]
    (f : Nat → Nat) (l : List Nat) (s : Sudoku) :
    l.foldl (fun st i => if p i then st else st.removeOptionAt (f i) v) s =
      ((l.filter fun i => decide (¬ p i)).map f).foldl
        (fun st i => st.removeOptionAt i v) s :=
  foldl_skip_filter (fun st i => st.removeOptionAt i v) p f l s

lemma foldl_of_foldsS (v : Option Nat) (L : Nat → List Nat) (l : List Nat) (s : Sudoku) :
    l.foldl (fun st a => (L a).foldl (fun st2 i => st2.removeOptionAt i v) st) s =
      (l.flatMap L).foldl (fun st i => st.removeOptionAt i v) s :=
  foldl_of_folds (fun st i => st.removeOptionAt i v) L l s

lemma propagate_eq_folds (s : Sudoku) (tid : Nat) :
    s.propagate tid =
      (blockIds (s.get tid)).foldl (fun st i => st.removeOptionAt i (s.get tid).value)
        ((colIds (s.get tid)).foldl (fun st i => st.removeOptionAt i (s.get tid).value)
          ((rowIds (s.get tid)).foldl (fun st i => st.removeOptionAt i (s.get tid).value) s)) := by
  simp only [Sudoku.propagate]
  simp only [foldl_skip_filterS, foldl_of_foldsS]
  rfl

lemma rowIds_lt (t : Cell) (htr : t.r < 9) : ∀ i ∈ rowIds t, i < 81 := by
  intro i hi
  unfold rowIds at hi
  simp only [List.mem_map, List.mem_filter, List.mem_range, decide_eq_true_eq] at hi
  obtain ⟨cq, ⟨h9, _⟩, rfl⟩ := hi
  omega

lemma colIds_lt (t : Cell) (htc : t.c < 9) : ∀ i ∈ colIds t, i < 81 := by
  intro i hi
  unfold colIds at hi
  simp only [List.mem_map, List.mem_filter, List.mem_range, decide_eq_true_eq] at hi
  obtain ⟨rq, ⟨h9, _⟩, rfl⟩ := hi
  omega

lemma blockIds_lt (t : Cell) : ∀ i ∈ blockIds t, i < 81 := by
  intro i hi
  unfold blockIds at hi
  simp only [List.mem_flatMap, List.mem_map, List.mem_filter, List.mem_range,
    decide_eq_true_eq] at hi
  obtain ⟨ri, hri, ci, ⟨hci, _⟩, rfl⟩ := hi
  have h1 : t.r % 3 < 3 := Nat.mod_lt _ (by omega)
  have h2 : t.c % 3 < 3 := Nat.mod_lt _ (by omega)
  omega

lemma mem_rowIds_iff (t : Cell) (p : Nat) (htr : t.r < 9) (_htc : t.c < 9) (hp : p < 81) :
    p ∈ rowIds t ↔ (p / 9 = t.r ∧ p % 9 ≠ t.c) := by
  unfold rowIds
  simp only [List.mem_map, List.mem_filter, List.mem_range, decide_eq_true_eq]
  constructor
  · rintro ⟨cq, ⟨hcq9, hne⟩, rfl⟩
    constructor <;> omega
  · rintro ⟨h1, h2⟩
    exact ⟨p % 9, ⟨by omega, by omega⟩, by omega⟩

lemma mem_colIds_iff (t : Cell) (p : Nat) (_htr : t.r < 9) (htc : t.c < 9) (hp : p < 81) :
    p ∈ colIds t ↔ (p % 9 = t.c ∧ p / 9 ≠ t.r) := by
  unfold colIds
  simp only [List.mem_map, List.mem_filter, List.mem_range, decide_eq_true_eq]
  constructor
  · rintro ⟨rq, ⟨hrq9, hne⟩, rfl⟩
    constructor <;> omega
  · rintro ⟨h1, h2⟩
    exact ⟨p / 9, ⟨by omega, by omega⟩, by omega⟩

lemma mem_blockIds_iff (t : Cell) (p : Nat) (_htr : t.r < 9) (_htc : t.c < 9) (hp : p < 81) :
    p ∈ blockIds t ↔
      (t.r % 3 * 3 ≤ p / 9 ∧ p / 9 < t.r % 3 * 3 + 3 ∧
       t.c % 3 * 3 ≤ p % 9 ∧ p % 9 < t.c % 3 * 3 + 3 ∧ ¬(p / 9 = t.r ∧ p % 9 = t.c)) := by
  unfold blockIds
  simp only [List.mem_flatMap, List.mem_map, List.mem_filter, List.mem_range,
    decide_eq_true_eq]
  have h1 : t.r % 3 < 3 := Nat.mod_lt _ (by omega)
  have h2 : t.c % 3 < 3 := Nat.mod_lt _ (by omega)
  constructor
  · rintro ⟨ri, hri, ci, ⟨hci, hcond⟩, rfl⟩
    refine ⟨by omega, by omega, by omega, by omega, fun hand => hcond ⟨by omega, by omega⟩⟩
  · rintro ⟨hb1, hb2, hb3, hb4, hb5⟩
    refine ⟨p / 9 - t.r % 3 * 3, by omega,
      ⟨p % 9 - t.c % 3 * 3, ⟨by omega, fun hand => hb5 ⟨by omega, by omega⟩⟩, by omega⟩⟩

/-- The set of cells struck by main.py Sudoku.propagate from a target at
(r, c): the 8 other cells of row r, the 8 other cells of column c, and the
cells of the 3 by 3 block at block index (r mod 3, c mod 3) scaled by 3
(all 9 of them whenever that block does not contain the target). -/
def propagatedCells (r c p : Nat) : Prop :=
  (p / 9 = r ∧ p % 9 ≠ c) ∨ (p % 9 = c ∧ p / 9 ≠ r) ∨
    (r % 3 * 3 ≤ p / 9 ∧ p / 9 < r % 3 * 3 + 3 ∧
     c % 3 * 3 ≤ p % 9 ∧ p % 9 < c % 3 * 3 + 3 ∧ ¬(p / 9 = r ∧ p % 9 = c))

instance (r c p : Nat) : Decidable (propagatedCells r c p) := by
  unfold propagatedCells
  infer_instance

end Main

set_option maxHeartbeats 1000000 in
/-- Claim C1 (amended): for a committed target cell at (r, c), main.py
Sudoku.propagate removes the committed value from exactly the cells of
propagatedCells r c: the 8 other cells of row r, the 8 other cells of
column c, and the cells of the 3 by 3 block at block index
(r mod 3, c mod 3) scaled by 3 — a block that contains (r, c) only when
r mod 3 equals r div 3 and c mod 3 equals c div 3; when it does not, all 9
of its cells are struck.  All other cells, and every committed value, are
left unchanged. -/
theorem sudoku_propagate_strikes (s : Main.Sudoku) (tid v : Nat)
    (hlen : s.cells.length = 81)
    (hv : (s.get tid).value = some v)
    (hr : (s.get tid).r < 9) (hc : (s.get tid).c < 9)
    (hnd : ∀ j, j < 81 → ((s.get j).options).Nodup) :
    ∀ p, p < 81 →
      ((s.propagate tid).get p).value = (s.get p).value ∧
      ((s.propagate tid).get p).options =
        (if Main.propagatedCells (s.get tid).r (s.get tid).c p
         then (s.get p).options.erase v else (s.get p).options) := by
  intro p hp
  rw [Main.propagate_eq_folds, hv]
  have e : (fun (st : Main.Sudoku) i => st.removeOptionAt i (some v)) = Main.removeStep v := rfl
  rw [e]
  have hnd0 : ∀ j, j < s.cells.length → ((s.get j).options).Nodup := by
    intro j hj
    exact hnd j (by omega)
  obtain ⟨len1, get1⟩ := Main.foldRemove_props v (Main.rowIds (s.get tid)) s
    (fun i hi => by rw [hlen]; exact Main.rowIds_lt _ hr i hi) hnd0
  have hnd1 : ∀ j, j < ((Main.rowIds (s.get tid)).foldl (Main.removeStep v) s).cells.length →
      ((((Main.rowIds (s.get tid)).foldl (Main.removeStep v) s).get j).options).Nodup := by
    intro j hj
    rw [(get1 j).2.2.2]
    by_cases hm : j ∈ Main.rowIds (s.get tid)
    · rw [if_pos hm]
      exact List.Nodup.sublist (List.erase_sublist v _) (hnd0 j (by rw [← len1]; exact hj))
    · rw [if_neg hm]
      exact hnd0 j (by rw [← len1]; exact hj)
  obtain ⟨len2, get2⟩ := Main.foldRemove_props v (Main.colIds (s.get tid))
    ((Main.rowIds (s.get tid)).foldl (Main.removeStep v) s)
    (fun i hi => by rw [len1, hlen]; exact Main.colIds_lt _ hc i hi) hnd1
  have hnd2 : ∀ j, j < ((Main.colIds (s.get tid)).foldl (Main.removeStep v)
        ((Main.rowIds (s.get tid)).foldl (Main.removeStep v) s)).cells.length →
      ((((Main.colIds (s.get tid)).foldl (Main.removeStep v)
        ((Main.rowIds (s.get tid)).foldl (Main.removeStep v) s)).get j).options).Nodup := by
    intro j hj
    rw [(get2 j).2.2.2]
    by_cases hm : j ∈ Main.colIds (s.get tid)
    · rw [if_pos hm]
      exact List.Nodup.sublist (List.erase_sublist v _) (hnd1 j (by rw [← len2]; exact hj))
    · rw [if_neg hm]
      exact hnd1 j (by rw [← len2]; exact hj)
  obtain ⟨len3, get3⟩ := Main.foldRemove_props v (Main.blockIds (s.get tid))
    ((Main.colIds (s.get tid)).foldl (Main.removeStep v)
      ((Main.rowIds (s.get tid)).foldl (Main.removeStep v) s))
    (fun i hi => by rw [len2, len1, hlen]; exact Main.blockIds_lt _ i hi) hnd2
  obtain ⟨gv3, _, _, go3⟩ := get3 p
  obtain ⟨gv2, _, _, go2⟩ := get2 p
  obtain ⟨gv1, _, _, go1⟩ := get1 p
  constructor
  · rw [gv3, gv2, gv1]
  · rw [go3, go2, go1]
    have hnodp : (s.get p).options.Nodup := hnd p hp
    have hee := erase_erase_of_nodup (s.get p).options v hnodp
    have hiff : Main.propagatedCells (s.get tid).r (s.get tid).c p ↔
        (p ∈ Main.rowIds (s.get tid) ∨ p ∈ Main.colIds (s.get tid) ∨
          p ∈ Main.blockIds (s.get tid)) := by
      rw [Main.mem_rowIds_iff _ _ hr hc hp, Main.mem_colIds_iff _ _ hr hc hp,
        Main.mem_blockIds_iff _ _ hr hc hp]
      unfold Main.propagatedCells
      exact Iff.rfl
    by_cases h1 : p ∈ Main.rowIds (s.get tid) <;>
      by_cases h2 : p ∈ Main.colIds (s.get tid) <;>
        by_cases h3 : p ∈ Main.blockIds (s.get tid)
    · rw [if_pos h1, if_pos h2, if_pos h3, hee, hee, if_pos (hiff.mpr (Or.inl h1))]
    · rw [if_pos h1, if_pos h2, if_neg h3, hee, if_pos (hiff.mpr (Or.inl h1))]
    · rw [if_pos h1, if_neg h2, if_pos h3, hee, if_pos (hiff.mpr (Or.inl h1))]
    · rw [if_pos h1, if_neg h2, if_neg h3, if_pos (hiff.mpr (Or.inl h1))]
    · rw [if_neg h1, if_pos h2, if_pos h3, hee, if_pos (hiff.mpr (Or.inr (Or.inl h2)))]
    · rw [if_neg h1, if_pos h2, if_neg h3, if_pos (hiff.mpr (Or.inr (Or.inl h2)))]
    · rw [if_neg h1, if_neg h2, if_pos h3, if_pos (hiff.mpr (Or.inr (Or.inr h3)))]
    · rw [if_neg h1, if_neg h2, if_neg h3,
        if_neg (fun hcon => (hiff.mp hcon).elim h1 (fun hx => hx.elim h2 h3))]

namespace Main

/-- A concrete Sudoku state: the target cell (1, 1) (flat id 10) is
committed to 5 with an emptied option set; all other cells still hold the
full option set 1..9. -/
def boxExample : Sudoku :=
  ⟨(List.range 81).map fun i =>
      if i = 10 then ⟨1, 1, some 5, []⟩
      else ⟨i / 9, i % 9, none, (List.range 9).map (· + 1)⟩,
    List.range 81⟩

/-- A concrete Sudoku state with two unresolved cells of different entropy:
id 0 holds options 1 and 2 (entropy 2), id 1 holds options 1, 2, 3
(entropy 3); every other cell is resolved. -/
def tieExample : Sudoku :=
  ⟨(List.range 81).map fun i =>
      if i = 0 then ⟨0, 0, none, [1, 2]⟩
      else if i = 1 then ⟨0, 1, none, [1, 2, 3]⟩
      else ⟨i / 9, i % 9, some 1, []⟩,
    List.range 81⟩

end Main

/-- Claim C1, counterexample to the claim as stated: propagating from the
committed cell (1, 1) (value 5), the claim requires 5 to be removed from
the 8 other cells of the 3 by 3 box containing (1, 1) — rows 0..2, columns
0..2 — and from nothing outside the three named groups.  The code instead
leaves cell (0, 0) untouched (5 survives there), and strikes cell (4, 4),
which lies in none of the claimed groups: the block loop uses block index
(r mod 3, c mod 3) = (1, 1), i.e. rows 3..5 and columns 3..5. -/
theorem sudoku_propagate_wrong_box_counterexample :
    5 ∈ ((Main.boxExample.propagate 10).get 0).options ∧
      5 ∉ ((Main.boxExample.propagate 10).get 40).options := by
  decide

/-- Witness for C1 (amended): at cell (1, 4) (flat id 13, in the target's
row), the characterization applies with all hypotheses discharged on the
concrete state boxExample. -/
theorem sudoku_propagate_strikes_witness :
    Main.boxExample.cells.length = 81 ∧
      ((Main.boxExample.propagate 10).get 13).options =
        (if Main.propagatedCells (Main.boxExample.get 10).r (Main.boxExample.get 10).c 13
         then (Main.boxExample.get 13).options.erase 5
         else (Main.boxExample.get 13).options) :=
  ⟨by decide,
    (sudoku_propagate_strikes Main.boxExample 10 5 (by decide) (by decide) (by decide)
      (by decide) (by decide) 13 (by decide)).2⟩

/-- Claim C3: evaluation of main.py Sudoku.get_min_entropy at the failing
input tieExample.  The minimum entropy over unresolved cells is 2
(attained only by cell id 0), yet the candidate list passed to choice is
[0, 1], also containing cell id 1 of entropy 3: the loop computing the
cutoff index breaks at the first cell of larger entropy but still includes
it via the slice cells[0..i+1).  The twin implementation in wfc.py
get_min_entropy filters the sorted list with an equality test and has no
such off-by-one. -/
theorem sudoku_min_entropy_candidates_off_by_one :
    Main.Sudoku.min_entropy_candidates Main.tieExample = [0, 1] ∧
      (Main.tieExample.get 0).entropy = 2 ∧ (Main.tieExample.get 1).entropy = 3 := by
  decide

namespace Wfc

lemma entropy_of_solved (c : Cell) (g : Grid) (h : c.is_solved = true) :
    c.entropy g = -1 := by
  simp [Cell.entropy, h]

lemma entropy_nonneg_of_unsolved (c : Cell) (g : Grid) (h : c.is_solved = false) :
    0 ≤ c.entropy g := by
  simp only [Cell.entropy, h, Bool.false_eq_true, if_false]
  exact pow_nonneg (Int.natCast_nonneg _) _

lemma sortedValues_pairwise (g : Grid) :
    (sortedValues g).Pairwise (fun a b => a.entropy g ≤ b.entropy g) := by
  unfold sortedValues
  rw [List.pairwise_map]
  have hs : ((g.values.map fun c => (c.entropy g, c)).insertionSort entPairRel).Pairwise
      entPairRel := List.sorted_insertionSort entPairRel _
  have hmem : ∀ pr ∈ (g.values.map fun c => (c.entropy g, c)).insertionSort entPairRel,
      pr.1 = pr.2.entropy g := by
    intro pr hpr
    have hpr' : pr ∈ g.values.map fun c => (c.entropy g, c) :=
      (List.perm_insertionSort entPairRel _).mem_iff.mp hpr
    rcases List.mem_map.mp hpr' with ⟨c, _, rfl⟩
    rfl
  exact hs.imp_of_mem (fun ha hb hr => by
    rw [← hmem _ ha, ← hmem _ hb]
    exact hr)

lemma split_solved_prefix (g : Grid) :
    ∀ (l : List Cell), l.Pairwise (fun a b => a.entropy g ≤ b.entropy g) →
      ∃ l1 l2, l = l1 ++ l2 ∧ (∀ c ∈ l1, c.is_solved = true) ∧
        (∀ c ∈ l2, c.is_solved = false) := by
  intro l
  induction l with
  | nil => exact fun _ => ⟨[], [], rfl, by simp, by simp⟩
  | cons a rest ih =>
    intro hp
    obtain ⟨l1, l2, heq, h1, h2⟩ := ih (List.Pairwise.of_cons hp)
    by_cases ha : a.is_solved
    · refine ⟨a :: l1, l2, by rw [List.cons_append, heq], ?_, h2⟩
      intro c hc
      rcases List.mem_cons.mp hc with rfl | hc'
      · exact ha
      · exact h1 c hc'
    · have hl1 : l1 = [] := by
        cases l1 with
        | nil => rfl
        | cons b bs =>
          have hb : b ∈ rest := by rw [heq]; exact List.mem_append_left _ (by simp)
          have hab : a.entropy g ≤ b.entropy g := (List.pairwise_cons.mp hp).1 b hb
          have hbs : b.is_solved = true := h1 b (by simp)
          have he1 : b.entropy g = -1 := entropy_of_solved b g hbs
          have he2 : 0 ≤ a.entropy g :=
            entropy_nonneg_of_unsolved a g (Bool.eq_false_iff.mpr ha)
          rw [he1] at hab
          omega
      subst hl1
      refine ⟨[], a :: l2, by simpa using heq, by simp, ?_⟩
      intro c hc
      rcases List.mem_cons.mp hc with rfl | hc'
      · exact Bool.eq_false_iff.mpr ha
      · exact h2 c hc'

end Wfc

/-- Claim C10: a resolved WFC cell has entropy -1; an unresolved cell has
entropy at least 0; consequently, in get_min_entropy the entropy sort
places all resolved cells in a prefix before every unresolved cell, and the
subsequent is_solved filter removes exactly that prefix, keeping the
unresolved suffix unchanged. -/
theorem wfc_entropy_resolved_sort_order :
    (∀ (c : Wfc.Cell) (g : Wfc.Grid), c.is_solved = true → c.entropy g = -1) ∧
    (∀ (c : Wfc.Cell) (g : Wfc.Grid), c.is_solved = false → 0 ≤ c.entropy g) ∧
    (∀ g : Wfc.Grid, ∃ l1 l2, Wfc.sortedValues g = l1 ++ l2 ∧
      (∀ c ∈ l1, c.is_solved = true) ∧ (∀ c ∈ l2, c.is_solved = false) ∧
      Wfc.unresolvedSorted g = l2) := by
  refine ⟨Wfc.entropy_of_solved, Wfc.entropy_nonneg_of_unsolved, fun g => ?_⟩
  obtain ⟨l1, l2, heq, h1, h2⟩ :=
    Wfc.split_solved_prefix g (Wfc.sortedValues g) (Wfc.sortedValues_pairwise g)
  refine ⟨l1, l2, heq, h1, h2, ?_⟩
  unfold Wfc.unresolvedSorted
  rw [heq, List.filter_append]
  have hf1 : l1.filter (fun c => ! c.is_solved) = [] := by
    rw [List.filter_eq_nil_iff]
    intro c hc
    rw [h1 c hc]
    simp
  have hf2 : l2.filter (fun c => ! c.is_solved) = l2 := by
    rw [List.filter_eq_self]
    intro c hc
    rw [h2 c hc]
    simp
  rw [hf1, hf2, List.nil_append]

/-- Witness for C10: the resolved and unresolved entropy clauses evaluated
on concrete cells of a 3 by 3 grid. -/
theorem wfc_entropy_resolved_sort_order_witness :
    (⟨0, 0, [], some Wfc.Tile.Water⟩ : Wfc.Cell).is_solved = true ∧
      (⟨1, 1, [Wfc.Tile.Water], none⟩ : Wfc.Cell).is_solved = false ∧
      Wfc.Cell.entropy ⟨0, 0, [], some Wfc.Tile.Water⟩ (Wfc.load_grid 3 3) = -1 ∧
      0 ≤ Wfc.Cell.entropy ⟨1, 1, [Wfc.Tile.Water], none⟩ (Wfc.load_grid 3 3) :=
  ⟨rfl, rfl,
    wfc_entropy_resolved_sort_order.1 ⟨0, 0, [], some Wfc.Tile.Water⟩ (Wfc.load_grid 3 3) rfl,
    wfc_entropy_resolved_sort_order.2.1 ⟨1, 1, [Wfc.Tile.Water], none⟩ (Wfc.load_grid 3 3) rfl⟩

namespace Wfc

/-! ### Pointwise preservation through wfc propagation -/

lemma setCell_cells (g : Grid) (p : Nat × Nat) (c : Cell) (q : Nat × Nat) :
    (setCell g p c).cells q = if q = p then c else g.cells q := rfl

/-- Pointwise relation between grid states along the propagation: option
counts never grow, and a cell that is committed with an empty option set is
left entirely unchanged. -/
def pres (g g' : Grid) : Prop :=
  ∀ q, (g'.cells q).options.length ≤ (g.cells q).options.length ∧
    ((g.cells q).value.isSome = true → (g.cells q).options = [] →
      (g'.cells q).value = (g.cells q).value ∧ (g'.cells q).options = [])

lemma pres_refl (g : Grid) : pres g g :=
  fun _ => ⟨le_refl _, fun _ h => ⟨rfl, h⟩⟩

lemma pres_trans {g1 g2 g3 : Grid} (h12 : pres g1 g2) (h23 : pres g2 g3) :
    pres g1 g3 := by
  intro q
  obtain ⟨l12, p12⟩ := h12 q
  obtain ⟨l23, p23⟩ := h23 q
  refine ⟨le_trans l23 l12, fun hv ho => ?_⟩
  obtain ⟨v2, o2⟩ := p12 hv ho
  have hv2 : (g2.cells q).value.isSome = true := by rw [v2]; exact hv
  obtain ⟨v3, o3⟩ := p23 hv2 o2
  exact ⟨by rw [v3, v2], o3⟩

lemma pres_autoResolve (g : Grid) (p : Nat × Nat) :
    pres g (setCell g p (autoResolveCell (g.cells p))) := by
  intro q
  rw [setCell_cells]
  by_cases hq : q = p
  · subst hq
    rw [if_pos rfl]
    unfold autoResolveCell
    by_cases hl : (g.cells q).options.length = 1
    · rw [if_pos hl]
      refine ⟨by simp [hl], fun hv ho => ?_⟩
      rw [ho] at hl
      simp at hl
    · rw [if_neg hl]
      exact ⟨le_refl _, fun _ h => ⟨rfl, h⟩⟩
  · rw [if_neg hq]
    exact ⟨le_refl _, fun _ h => ⟨rfl, h⟩⟩

lemma pres_setCell_applyRule (g : Grid) (p q : Nat × Nat) (nb : Cell)
    (hs : (g.cells q).is_solved = false)
    (harp : applyRule (g.cells p) (g.cells q) = some nb) :
    pres g (setCell g q nb) := by
  intro q'
  rw [setCell_cells]
  by_cases hq' : q' = q
  · subst hq'
    rw [if_pos rfl]
    rw [applyRule_some_eq _ _ _ harp]
    constructor
    · exact eraseFold_length_le _ _
    · intro hv _
      unfold Cell.is_solved at hs
      rw [hv] at hs
      cases hs
  · rw [if_neg hq']
    exact ⟨le_refl _, fun _ h => ⟨rfl, h⟩⟩

lemma pres_neighborStep (recf : Nat × Nat → Grid → Option Grid)
    (hrec : ∀ q g g', recf q g = some g' → pres g g')
    (p q : Nat × Nat) (g g' : Grid) (h : neighborStep recf p q g = some g') :
    pres g g' := by
  unfold neighborStep at h
  by_cases hs : (g.cells q).is_solved
  · rw [if_pos hs] at h
    cases h
    exact pres_refl g
  · rw [if_neg hs] at h
    by_cases hle : (g.cells q).options.length ≤ 1
    · rw [if_pos hle] at h
      cases h
    · rw [if_neg hle] at h
      cases harp : applyRule (g.cells p) (g.cells q) with
      | none =>
        rw [harp] at h
        cases h
      | some nb =>
        rw [harp] at h
        simp only at h
        have hpres1 : pres g (setCell g q nb) :=
          pres_setCell_applyRule g p q nb (Bool.eq_false_iff.mpr hs) harp
        by_cases hne : ((setCell g q nb).cells q).options.length ≠
            (g.cells q).options.length
        · rw [if_pos hne] at h
          exact pres_trans hpres1 (hrec q (setCell g q nb) g' h)
        · rw [if_neg hne] at h
          cases h
          exact hpres1

lemma foldNbrs_none (recf : Nat × Nat → Grid → Option Grid) (p : Nat × Nat) :
    ∀ (l : List (Nat × Nat)),
      l.foldl (fun acc q => match acc with
        | none => none
        | some g2 => neighborStep recf p q g2) none = none := by
  intro l
  induction l with
  | nil => rfl
  | cons q rest ih => rw [List.foldl_cons]; exact ih

lemma pres_foldNbrs (recf : Nat × Nat → Grid → Option Grid)
    (hrec : ∀ q g g', recf q g = some g' → pres g g') (p : Nat × Nat) :
    ∀ (nbs : List (Nat × Nat)) (g g' : Grid),
      nbs.foldl (fun acc q => match acc with
        | none => none
        | some g2 => neighborStep recf p q g2) (some g) = some g' →
      pres g g' := by
  intro nbs
  induction nbs with
  | nil =>
    intro g g' h
    cases h
    exact pres_refl g
  | cons q rest ih =>
    intro g g' h
    rw [List.foldl_cons] at h
    dsimp only at h
    cases hstep : neighborStep recf p q g with
    | none =>
      rw [hstep] at h
      rw [foldNbrs_none] at h
      cases h
    | some g2 =>
      rw [hstep] at h
      exact pres_trans (pres_neighborStep recf hrec p q g g2 hstep) (ih g2 g' h)

lemma propagate_pres : ∀ (n : Nat) (p : Nat × Nat) (g g' : Grid),
    propagate n p g = some g' → pres g g' := by
  intro n
  induction n with
  | zero => intro p g g' h; cases h
  | succ n ih =>
    intro p g g' h
    simp only [propagate] at h
    cases hnb : cell_neighbors ((setCell g p (autoResolveCell (g.cells p))).cells p)
        (setCell g p (autoResolveCell (g.cells p))) with
    | none =>
      rw [hnb] at h
      cases h
    | some nbs =>
      rw [hnb] at h
      exact pres_trans (pres_autoResolve g p) (pres_foldNbrs (propagate n) ih p nbs _ g' h)

end Wfc

lemma set_of_length_le {α : Type} (l : List α) (i : Nat) (a : α) (h : l.length ≤ i) :
    l.set i a = l := by
  induction l generalizing i with
  | nil => rfl
  | cons x xs ih =>
    cases i with
    | zero => simp at h
    | succ n =>
      show x :: xs.set n a = x :: xs
      rw [ih n (by simpa using h)]

lemma getD_set_cond {α : Type} (l : List α) (i j : Nat) (a d : α) :
    (l.set i a).getD j d = if j = i ∧ i < l.length then a else l.getD j d := by
  by_cases hj : j = i
  · subst hj
    by_cases hi : j < l.length
    · rw [getD_set_self _ _ _ _ hi, if_pos ⟨rfl, hi⟩]
    · rw [set_of_length_le _ _ _ (Nat.le_of_not_lt hi), if_neg (fun hc => hi hc.2)]
  · rw [getD_set_ne _ i j _ _ (fun he => hj he.symm), if_neg (fun hc => hj hc.1)]

namespace Main

lemma get_set_cond (s : Sudoku) (i : Nat) (c : Cell) (j : Nat) :
    (s.set i c).get j = if j = i ∧ i < s.cells.length then c else s.get j := by
  unfold Sudoku.set Sudoku.get
  rw [getD_set_cond]

lemma get_order_update (s : Sudoku) (o : List Nat) (j : Nat) :
    (Sudoku.get { s with order := o } j) = s.get j := rfl

lemma removeOptionAt_pointwise (s : Sudoku) (i : Nat) (v : Option Nat) (j : Nat) :
    ((s.removeOptionAt i v).get j).value = (s.get j).value ∧
    ((s.removeOptionAt i v).get j).options.length ≤ (s.get j).options.length ∧
    ((s.get j).options = [] → ((s.removeOptionAt i v).get j).options = []) := by
  cases v with
  | none => exact ⟨rfl, le_refl _, fun h => h⟩
  | some n =>
    have hg : (s.removeOptionAt i (some n)).get j =
        if j = i ∧ i < s.cells.length then (s.get i).remove_option n else s.get j := by
      unfold Sudoku.removeOptionAt Sudoku.set Sudoku.get
      rw [getD_set_cond]
    rw [hg]
    by_cases hc : j = i ∧ i < s.cells.length
    · obtain ⟨hj, hilen⟩ := hc
      subst hj
      rw [if_pos ⟨rfl, hilen⟩]
      obtain ⟨f1, _, _, f4⟩ := remove_option_fields (s.get j) n
      rw [f1, f4]
      refine ⟨rfl, (List.erase_sublist n _).length_le, fun h => ?_⟩
      rw [h]
      rfl
    · rw [if_neg hc]
      exact ⟨rfl, le_refl _, fun h => h⟩

lemma fold_remove_pointwise (v : Option Nat) :
    ∀ (ids : List Nat) (s : Sudoku) (j : Nat),
      ((ids.foldl (fun st i => st.removeOptionAt i v) s).get j).value = (s.get j).value ∧
      ((ids.foldl (fun st i => st.removeOptionAt i v) s).get j).options.length ≤
        (s.get j).options.length ∧
      ((s.get j).options = [] →
        ((ids.foldl (fun st i => st.removeOptionAt i v) s).get j).options = []) := by
  intro ids
  induction ids with
  | nil => exact fun s j => ⟨rfl, le_refl _, fun h => h⟩
  | cons i rest ih =>
    intro s j
    rw [List.foldl_cons]
    obtain ⟨sv, sl, se⟩ := removeOptionAt_pointwise s i v j
    obtain ⟨iv, il, ie⟩ := ih (s.removeOptionAt i v) j
    refine ⟨by rw [iv, sv], le_trans il sl, fun h => ie (se h)⟩

lemma propagate_pointwise (s : Sudoku) (tid : Nat) (j : Nat) :
    ((s.propagate tid).get j).value = (s.get j).value ∧
    ((s.propagate tid).get j).options.length ≤ (s.get j).options.length ∧
    ((s.get j).options = [] → ((s.propagate tid).get j).options = []) := by
  rw [propagate_eq_folds]
  obtain ⟨v1, l1, e1⟩ :=
    fold_remove_pointwise (s.get tid).value (rowIds (s.get tid)) s j
  obtain ⟨v2, l2, e2⟩ := fold_remove_pointwise (s.get tid).value (colIds (s.get tid))
    ((rowIds (s.get tid)).foldl (fun st i => st.removeOptionAt i (s.get tid).value) s) j
  obtain ⟨v3, l3, e3⟩ := fold_remove_pointwise (s.get tid).value (blockIds (s.get tid))
    ((colIds (s.get tid)).foldl (fun st i => st.removeOptionAt i (s.get tid).value)
      ((rowIds (s.get tid)).foldl (fun st i => st.removeOptionAt i (s.get tid).value) s)) j
  exact ⟨by rw [v3, v2, v1], le_trans l3 (le_trans l2 l1), fun h => e3 (e2 (e1 h))⟩

lemma collapse_resolved_pres (s : Sudoku) (i rnd : Nat) (s' : Sudoku)
    (h : s.collapse i rnd = some s') (j : Nat) (v : Nat)
    (hv : (s.get j).value = some v) (ho : (s.get j).options = []) :
    (s'.get j).value = some v ∧ (s'.get j).options = [] := by
  unfold Sudoku.collapse at h
  by_cases he : (s.get i).options.isEmpty
  · rw [if_pos he] at h
    cases h
  · rw [if_neg he] at h
    cases h
    rw [get_set_cond]
    by_cases hc : j = i ∧ i < s.cells.length
    · obtain ⟨hj, _⟩ := hc
      subst hj
      rw [ho] at he
      exact absurd rfl he
    · rw [if_neg hc]
      exact ⟨hv, ho⟩

end Main

namespace Main

lemma get_min_entropy_get (s : Sudoku) (rnd : Nat) (s1 : Sudoku) (i : Nat)
    (h : s.get_min_entropy rnd = some (s1, i)) : ∀ j, s1.get j = s.get j := by
  unfold Sudoku.get_min_entropy at h
  by_cases hemp : s.entropy_filtered.isEmpty
  · rw [if_pos hemp] at h
    cases h
  · rw [if_neg hemp] at h
    injection h with h2
    rw [Prod.mk.injEq] at h2
    obtain ⟨ha, _⟩ := h2
    subst ha
    intro j
    rfl

lemma pass_fold_none (oracle : Nat → Nat) : ∀ (ids : List Nat),
    ids.foldl
      (fun (acc : Option (Sudoku × Nat)) i =>
        match acc with
        | none => none
        | some (st, kk) =>
          let c := st.get i
          if c.value = none ∧ c.entropy = 1 then
            match st.collapse i (oracle kk) with
            | none => none
            | some st2 => some (st2.propagate i, kk + 1)
          else some (st, kk))
      none = none := by
  intro ids
  induction ids with
  | nil => rfl
  | cons i rest ih =>
    rw [List.foldl_cons]
    exact ih

lemma pass_fold_pres (oracle : Nat → Nat) :
    ∀ (ids : List Nat) (s : Sudoku) (k : Nat) (s' : Sudoku) (k' : Nat),
      ids.foldl
        (fun acc i =>
          match acc with
          | none => none
          | some (st, kk) =>
            let c := st.get i
            if c.value = none ∧ c.entropy = 1 then
              match st.collapse i (oracle kk) with
              | none => none
              | some st2 => some (st2.propagate i, kk + 1)
            else some (st, kk))
        (some (s, k)) = some (s', k') →
      ∀ j v, (s.get j).value = some v → (s.get j).options = [] →
        (s'.get j).value = some v ∧ (s'.get j).options = [] := by
  intro ids
  induction ids with
  | nil =>
    intro s k s' k' h j v hv ho
    cases h
    exact ⟨hv, ho⟩
  | cons i rest ih =>
    intro s k s' k' h j v hv ho
    rw [List.foldl_cons] at h
    dsimp only at h
    by_cases hcond : (s.get i).value = none ∧ (s.get i).entropy = 1
    · rw [if_pos hcond] at h
      cases hcol : s.collapse i (oracle k) with
      | none =>
        rw [hcol] at h
        dsimp only at h
        rw [pass_fold_none] at h
        cases h
      | some st2 =>
        rw [hcol] at h
        dsimp only at h
        obtain ⟨pv, po⟩ := collapse_resolved_pres s i (oracle k) st2 hcol j v hv ho
        obtain ⟨qv, _, qe⟩ := propagate_pointwise st2 i j
        exact ih (st2.propagate i) (k + 1) s' k' h j v (by rw [qv]; exact pv) (qe po)
    · rw [if_neg hcond] at h
      exact ih s k s' k' h j v hv ho

lemma solve_pass_resolved_pres (s : Sudoku) (oracle : Nat → Nat) (k : Nat)
    (s' : Sudoku) (k' : Nat) (h : s.solve_pass oracle k = some (s', k')) :
    ∀ j v, (s.get j).value = some v → (s.get j).options = [] →
      (s'.get j).value = some v ∧ (s'.get j).options = [] := by
  unfold Sudoku.solve_pass at h
  exact pass_fold_pres oracle s.order s k s' k' h

lemma solve_resolved_pres : ∀ (fuel : Nat) (s : Sudoku) (oracle : Nat → Nat) (k : Nat)
    (s' : Sudoku) (k' : Nat), Sudoku.solve fuel s oracle k = some (s', k') →
    ∀ j v, (s.get j).value = some v → (s.get j).options = [] →
      (s'.get j).value = some v ∧ (s'.get j).options = [] := by
  intro fuel
  induction fuel with
  | zero => intro s oracle k s' k' h; cases h
  | succ n ih =>
    intro s oracle k s' k' h j v hv ho
    simp only [Sudoku.solve] at h
    by_cases hs : s.is_solved
    · rw [if_pos hs] at h
      cases h
      exact ⟨hv, ho⟩
    · rw [if_neg hs] at h
      cases hgm : s.get_min_entropy (oracle k) with
      | none => rw [hgm] at h; cases h
      | some pr =>
        rw [hgm] at h
        obtain ⟨s1, i⟩ := pr
        dsimp only at h
        cases hcol : s1.collapse i (oracle (k + 1)) with
        | none => rw [hcol] at h; cases h
        | some s2 =>
          rw [hcol] at h
          dsimp only at h
          cases hpass : (s2.propagate i).solve_pass oracle (k + 2) with
          | none => rw [hpass] at h; cases h
          | some pr2 =>
            rw [hpass] at h
            obtain ⟨s4, k4⟩ := pr2
            dsimp only at h
            have hs1 := get_min_entropy_get s (oracle k) s1 i hgm
            obtain ⟨cv, co⟩ := collapse_resolved_pres s1 i (oracle (k + 1)) s2 hcol j v
              (by rw [hs1 j]; exact hv) (by rw [hs1 j]; exact ho)
            obtain ⟨qv, _, qe⟩ := propagate_pointwise s2 i j
            obtain ⟨pv, po⟩ := solve_pass_resolved_pres (s2.propagate i) oracle (k + 2)
              s4 k4 hpass j v (by rw [qv]; exact cv) (qe co)
            exact ih s4 oracle k4 s' k' h j v pv po

end Main

/-- Claim C8: option sets only ever shrink.  Each mutating operation of
both instantiations — wfc.py Cell.remove, collapse_cell, propagate and the
init_grid seeding step, main.py Cell.remove_option, Sudoku.collapse and
Sudoku.propagate — leaves every cell's option count no larger than before;
no operation ever adds an option. -/
theorem options_monotonic_shrink :
    (∀ (c : Wfc.Cell) (opts : List Wfc.Tile) (c' : Wfc.Cell),
        c.remove opts = some c' → c'.options.length ≤ c.options.length) ∧
    (∀ (c : Wfc.Cell) (rnd : Nat) (c' : Wfc.Cell),
        Wfc.collapse_cell c rnd = some c' → c'.options = []) ∧
    (∀ (c : Main.Cell) (o : Nat),
        ((c.remove_option o).options).length ≤ c.options.length) ∧
    (∀ (s : Main.Sudoku) (i rnd : Nat) (s' : Main.Sudoku),
        s.collapse i rnd = some s' → (s'.get i).options = []) ∧
    (∀ (n : Nat) (p : Nat × Nat) (g g' : Wfc.Grid), Wfc.propagate n p g = some g' →
        ∀ q, (g'.cells q).options.length ≤ (g.cells q).options.length) ∧
    (∀ (s : Main.Sudoku) (tid j : Nat),
        ((s.propagate tid).get j).options.length ≤ (s.get j).options.length) ∧
    (∀ (fuel : Nat) (g : Wfc.Grid) (p : Nat × Nat) (t : Wfc.Tile) (g' : Wfc.Grid),
        Wfc.seedCell fuel g p t = some g' →
        ∀ q, (g'.cells q).options.length ≤ (g.cells q).options.length) := by
  refine ⟨?_, ?_, ?_, ?_, ?_, ?_, ?_⟩
  · intro c opts c' h
    rw [Wfc.remove_eq_some_iff] at h
    rw [h.2]
    exact eraseFold_length_le _ _
  · intro c rnd c' h
    unfold Wfc.collapse_cell at h
    by_cases hs : c.is_solved
    · rw [if_pos hs] at h; cases h
    · rw [if_neg hs] at h
      by_cases he : c.options.isEmpty
      · rw [if_pos he] at h; cases h
      · rw [if_neg he] at h
        cases h
        rfl
  · intro c o
    rw [(Main.remove_option_fields c o).2.2.2]
    exact (List.erase_sublist o _).length_le
  · intro s i rnd s' h
    unfold Main.Sudoku.collapse at h
    by_cases he : (s.get i).options.isEmpty
    · rw [if_pos he] at h; cases h
    · rw [if_neg he] at h
      cases h
      rw [Main.get_set_cond]
      by_cases hc : i = i ∧ i < s.cells.length
      · rw [if_pos hc]
      · rw [if_neg hc]
        unfold Main.Sudoku.get
        rw [List.getD_eq_default]
        have : ¬ i < s.cells.length := fun hlt => hc ⟨rfl, hlt⟩
        omega
  · intro n p g g' h q
    exact (Wfc.propagate_pres n p g g' h q).1
  · intro s tid j
    exact (Main.propagate_pointwise s tid j).2.1
  · intro fuel g p t g' h q
    have hm := (Wfc.propagate_pres fuel p _ g' h q).1
    rw [Wfc.setCell_cells] at hm
    by_cases hq : q = p
    · rw [if_pos hq] at hm
      exact le_trans hm (Nat.zero_le _)
    · rw [if_neg hq] at hm
      exact hm

/-- Witness for C8: a successful removal of Sand from a two-option cell
leaves at most as many options as before. -/
theorem options_monotonic_shrink_witness :
    Wfc.Cell.remove ⟨0, 0, [Wfc.Tile.Water, Wfc.Tile.Sand], none⟩ [Wfc.Tile.Sand] =
        some ⟨0, 0, [Wfc.Tile.Water], none⟩ ∧
      (⟨0, 0, [Wfc.Tile.Water], none⟩ : Wfc.Cell).options.length ≤
        (⟨0, 0, [Wfc.Tile.Water, Wfc.Tile.Sand], none⟩ : Wfc.Cell).options.length :=
  ⟨by decide,
    options_monotonic_shrink.1 ⟨0, 0, [Wfc.Tile.Water, Wfc.Tile.Sand], none⟩
      [Wfc.Tile.Sand] ⟨0, 0, [Wfc.Tile.Water], none⟩ (by decide)⟩

/-- Claim C9: resolved cells are frozen.  wfc.py collapse_cell fails on a
solved cell, main.py Sudoku.collapse fails on a resolved cell (its emptied
option set trips the assert), the auto-resolve branch of wfc.py propagate
does nothing to a cell with zero options, both propagate operations keep a
resolved cell's committed value and empty option set intact, and a full run
of main.py Sudoku.solve — whose extra pass only touches value-less cells —
never changes a resolved cell. -/
theorem resolved_cells_frozen :
    (∀ (c : Wfc.Cell) (rnd : Nat), c.is_solved = true → Wfc.collapse_cell c rnd = none) ∧
    (∀ (s : Main.Sudoku) (i rnd v : Nat), (s.get i).value = some v →
        (s.get i).options = [] → s.collapse i rnd = none) ∧
    (∀ c : Wfc.Cell, c.options = [] → Wfc.autoResolveCell c = c) ∧
    (∀ (n : Nat) (p : Nat × Nat) (g g' : Wfc.Grid) (q : Nat × Nat) (t : Wfc.Tile),
        Wfc.propagate n p g = some g' → (g.cells q).value = some t →
        (g.cells q).options = [] →
        (g'.cells q).value = some t ∧ (g'.cells q).options = []) ∧
    (∀ (s : Main.Sudoku) (tid j v : Nat), (s.get j).value = some v →
        (s.get j).options = [] →
        ((s.propagate tid).get j).value = some v ∧
          ((s.propagate tid).get j).options = []) ∧
    (∀ (fuel : Nat) (s : Main.Sudoku) (oracle : Nat → Nat) (k : Nat) (s' : Main.Sudoku)
        (k' j v : Nat), Main.Sudoku.solve fuel s oracle k = some (s', k') →
        (s.get j).value = some v → (s.get j).options = [] →
        (s'.get j).value = some v ∧ (s'.get j).options = []) := by
  refine ⟨?_, ?_, ?_, ?_, ?_, ?_⟩
  · intro c rnd h
    unfold Wfc.collapse_cell
    rw [if_pos h]
  · intro s i rnd v _ ho
    unfold Main.Sudoku.collapse
    dsimp only
    rw [ho]
    rfl
  · intro c h
    unfold Wfc.autoResolveCell
    rw [h]
    rfl
  · intro n p g g' q t h hv ho
    have hp := (Wfc.propagate_pres n p g g' h q).2 (by rw [hv]; rfl) ho
    exact ⟨by rw [hp.1, hv], hp.2⟩
  · intro s tid j v hv ho
    obtain ⟨pv, _, pe⟩ := Main.propagate_pointwise s tid j
    exact ⟨by rw [pv, hv], pe ho⟩
  · intro fuel s oracle k s' k' j v h hv ho
    exact Main.solve_resolved_pres fuel s oracle k s' k' h j v hv ho

/-- Witness for C9: collapsing an already-solved cell is a fatal error. -/
theorem resolved_cells_frozen_witness :
    (⟨0, 0, [], some Wfc.Tile.Water⟩ : Wfc.Cell).is_solved = true ∧
      Wfc.collapse_cell ⟨0, 0, [], some Wfc.Tile.Water⟩ 0 = none :=
  ⟨rfl, resolved_cells_frozen.1 ⟨0, 0, [], some Wfc.Tile.Water⟩ 0 rfl⟩

namespace Wfc

/-! ### Spec-side formulation of the propagation engine (for claim C6) -/

/-- Spec-side auto-resolve, following the claim's words: when the cell has
exactly one option, commit that single option and empty the option set. -/
def autoResolveSpec (c : Cell) : Cell :=
  match c.options with
  | [v] => { c with value := some v, options := [] }
  | _ => c

lemma autoResolve_eq_spec (c : Cell) : autoResolveCell c = autoResolveSpec c := by
  unfold autoResolveCell autoResolveSpec
  cases hc : c.options with
  | nil => simp
  | cons a rest =>
    cases rest with
    | nil => simp
    | cons b r2 => simp

/-- Spec-side neighbor step, following the claim's words: skip resolved
neighbors unchanged, apply the Constraint Rule (one removal of the full
strike list), and recurse exactly when the neighbor's option-set size
strictly decreased.  The assert guards of the code are carried through
unchanged (the claim is silent about them). -/
def neighborStepSpec (rec : Nat × Nat → Grid → Option Grid) (p q : Nat × Nat)
    (g : Grid) : Option Grid :=
  if (g.cells q).is_solved then some g
  else if (g.cells q).options.length ≤ 1 then none
  else
    match applyRuleSpec (g.cells p) (g.cells q) with
    | none => none
    | some nb =>
      let g2 := setCell g q nb
      if (g2.cells q).options.length < (g.cells q).options.length then rec q g2
      else some g2

/-- Spec-side propagation, following §4.4 of the spec as quoted by the
claim: first auto-resolve a singleton cell, then walk the neighbors in
order, applying the Constraint Rule and recursing into every neighbor
whose option-set size strictly decreased. -/
def propagateSpec : Nat → Nat × Nat → Grid → Option Grid
  | 0, _, _ => none
  | n + 1, p, g =>
    let g1 := setCell g p (autoResolveSpec (g.cells p))
    match cell_neighbors (g1.cells p) g1 with
    | none => none
    | some nbs =>
      nbs.foldl
        (fun acc q =>
          match acc with
          | none => none
          | some g2 => neighborStepSpec (propagateSpec n) p q g2)
        (some g1)

lemma neighborStep_eq_spec (recf recf' : Nat × Nat → Grid → Option Grid)
    (hr : ∀ q g, recf q g = recf' q g) (p q : Nat × Nat) (g : Grid) :
    neighborStep recf p q g = neighborStepSpec recf' p q g := by
  unfold neighborStep neighborStepSpec
  rw [applyRule_eq_spec]
  by_cases hs : (g.cells q).is_solved
  · rw [if_pos hs, if_pos hs]
  · rw [if_neg hs, if_neg hs]
    by_cases hle : (g.cells q).options.length ≤ 1
    · rw [if_pos hle, if_pos hle]
    · rw [if_neg hle, if_neg hle]
      cases harp : applyRuleSpec (g.cells p) (g.cells q) with
      | none => rfl
      | some nb =>
        dsimp only
        have hlen : ((setCell g q nb).cells q).options.length ≤
            (g.cells q).options.length := by
          rw [setCell_cells, if_pos rfl]
          exact applyRule_length_le (g.cells p) (g.cells q) nb
            (by rw [applyRule_eq_spec]; exact harp)
        by_cases hne : ((setCell g q nb).cells q).options.length ≠
            (g.cells q).options.length
        · rw [if_pos hne, if_pos (lt_of_le_of_ne hlen hne), hr]
        · rw [if_neg hne,
            if_neg (fun hlt => Nat.ne_of_lt hlt (not_not.mp hne))]

lemma foldl_funext {α β : Type} (f g : β → α → β) (h : ∀ b a, f b a = g b a) :
    ∀ (l : List α) (b : β), l.foldl f b = l.foldl g b := by
  intro l
  induction l with
  | nil => intro b; rfl
  | cons a rest ih =>
    intro b
    rw [List.foldl_cons, List.foldl_cons, h b a, ih]

end Wfc

/-- Claim C6: wfc.py propagate coincides with the spec's description of the
propagation engine: it first auto-resolves the cell exactly when it has
exactly one option (committing that single option and emptying the option
set), and then, for each unresolved neighbor in turn, applies the
Constraint Rule and recursively propagates from that neighbor if and only
if the neighbor's option-set size strictly decreased; resolved neighbors
are skipped unchanged.  The code's recursion test compares the size before
and after with inequality; since strikes only remove options, that change
test is exactly a strict decrease, and the two formulations agree at every
fuel, cell and grid. -/
theorem wfc_propagate_spec_equiv : ∀ (n : Nat) (p : Nat × Nat) (g : Wfc.Grid),
    Wfc.propagate n p g = Wfc.propagateSpec n p g := by
  intro n
  induction n with
  | zero => intro p g; rfl
  | succ n ih =>
    intro p g
    simp only [Wfc.propagate, Wfc.propagateSpec]
    rw [Wfc.autoResolve_eq_spec]
    cases hnb : Wfc.cell_neighbors
        ((Wfc.setCell g p (Wfc.autoResolveSpec (g.cells p))).cells p)
        (Wfc.setCell g p (Wfc.autoResolveSpec (g.cells p))) with
    | none => rfl
    | some nbs =>
      dsimp only
      exact Wfc.foldl_funext _ _
        (fun acc q => by
          cases acc with
          | none => rfl
          | some g2 =>
            exact Wfc.neighborStep_eq_spec (Wfc.propagate n) (Wfc.propagateSpec n)
              (fun q' g' => ih q' g') p q g2)
        nbs (some (Wfc.setCell g p (Wfc.autoResolveSpec (g.cells p))))
